import Mathlib

/-!
Verification of `campies.py` (a CLI that locates and repackages Apple's
BootCamp Windows driver package).  The repository's operations are embedded
shallowly: pure string processing is translated to functions over `List Char`,
the network / filesystem world is passed in explicitly, exceptions become
`Option` / `Except`, and the `build` pipeline is modelled as the trace of
effects it performs.
-/

/-- Character constants used by the JavaScript-to-JSON text rewriting in
`get_supported_models` (written via `Char.ofNat` to keep literals plain):
the single-quote character. -/
def sqc : Char := Char.ofNat 39

/-- Double-quote character. -/
def dqc : Char := Char.ofNat 34

/-- Backslash character. -/
def bslc : Char := Char.ofNat 92

/-- Worker for Python `str.replace(old, new)`: replace every
non-overlapping occurrence of `pat` by `rep`, scanning left to right.
`fuel` makes the recursion structural; it is always supplied at least as
large as the input (each step consumes at least one character), so the
`0, l => l` clause is never reached from `replaceAll`. -/
def replaceAllF (pat rep : List Char) : Nat → List Char → List Char
  | _, [] => []
  | 0, l => l
  | fuel + 1, a :: l =>
    if pat.isPrefixOf (a :: l) ∧ pat ≠ [] then
      rep ++ replaceAllF pat rep fuel (l.drop (pat.length - 1))
    else
      a :: replaceAllF pat rep fuel l

/-- Python `str.replace(old, new)`.  (The source only ever calls it with a
non-empty `old`; for an empty `pat` this definition is the identity.) -/
def replaceAll (pat rep : List Char) (l : List Char) : List Char :=
  replaceAllF pat rep l.length l

/-- Python's substring test `pat in l` on strings, as a scan over positions. -/
def containsSub (pat : List Char) : List Char → Bool
  | [] => pat.isEmpty
  | a :: l => pat.isPrefixOf (a :: l) || containsSub pat l

/-- Python `str.strip()` whitespace set: space, tab, newline, carriage
return, vertical tab, form feed. -/
def pyIsSpace (c : Char) : Bool :=
  c = ' ' || c = '\t' || c = '\n' || c = '\r' || c = Char.ofNat 11 || c = Char.ofNat 12

/-- Python `str.strip()`: drop leading and trailing whitespace. -/
def pyStrip (l : List Char) : List Char :=
  ((l.dropWhile pyIsSpace).reverse.dropWhile pyIsSpace).reverse

/-- Python `str.split(sep)` for the single separator character `'\n'`,
as used by `script.split('\n')` in `get_supported_models`. -/
def splitLines : List Char → List (List Char)
  | [] => [[]]
  | c :: l =>
    match splitLines l with
    | [] => [[c]]
    | h :: t => if c = '\n' then [] :: h :: t else (c :: h) :: t

/-- JSON inter-token whitespace (RFC 8259): space, tab, newline, return. -/
def pJsonWs (c : Char) : Bool :=
  c = ' ' || c = '\t' || c = '\n' || c = '\r'

/-- JSON simple escape characters (`json.loads` string escapes other than
the `uXXXX` form, which the catalog data never uses and which this model
rejects). -/
def escChar (c : Char) : Option Char :=
  if c = dqc then some dqc
  else if c = bslc then some bslc
  else if c = '/' then some '/'
  else if c = 'b' then some (Char.ofNat 8)
  else if c = 'f' then some (Char.ofNat 12)
  else if c = 'n' then some '\n'
  else if c = 'r' then some '\r'
  else if c = 't' then some '\t'
  else none

/-- Parse the body of a JSON string after its opening quote, up to and
including the closing quote; returns the decoded content and the remaining
input.  Unescaped control characters (below U+0020) are rejected, as by
`json.loads` in its default strict mode. -/
def parseStringBody : List Char → Option (List Char × List Char)
  | [] => none
  | c :: l =>
    if c = dqc then some ([], l)
    else if c = bslc then
      match l with
      | [] => none
      | e :: l2 =>
        match escChar e with
        | none => none
        | some d =>
          match parseStringBody l2 with
          | none => none
          | some (s, r) => some (d :: s, r)
    else if c.toNat < 32 then none
    else
      match parseStringBody l with
      | none => none
      | some (s, r) => some (c :: s, r)

/-- Parse the remainder of a non-empty JSON array of strings: one string,
then either a comma and more elements or the closing bracket followed only
by whitespace.  `fuel` bounds the number of elements and is always supplied
large enough. -/
def parseArrayTail : Nat → List Char → Option (List (List Char))
  | 0, _ => none
  | fuel + 1, l =>
    match l.dropWhile pJsonWs with
    | [] => none
    | c :: r =>
      if c = dqc then
        match parseStringBody r with
        | none => none
        | some (s, r2) =>
          match r2.dropWhile pJsonWs with
          | [] => none
          | c2 :: r3 =>
            if c2 = ',' then
              match parseArrayTail fuel r3 with
              | none => none
              | some rest => some (s :: rest)
            else if c2 = ']' then
              if (r3.dropWhile pJsonWs).isEmpty then some [s] else none
            else none
      else none

/-- The fragment of Python `json.loads` exercised by `get_supported_models`:
a JSON array of strings (the only shape the catalog's model declarations
take).  `none` models `json.loads` raising `ValueError`; any input that is
not exactly an array of strings is rejected. -/
def json_loads_strings (l : List Char) : Option (List (List Char)) :=
  match l.dropWhile pJsonWs with
  | [] => none
  | c :: r =>
    if c = '[' then
      match r.dropWhile pJsonWs with
      | [] => parseArrayTail 1 []
      | c2 :: r2 =>
        if c2 = ']' then
          if (r2.dropWhile pJsonWs).isEmpty then some [] else none
        else parseArrayTail ((c2 :: r2).length + 1) (c2 :: r2)
    else none

/-- The pattern `var models =` removed from the matched line. -/
def varModelsEq : List Char := ("var models =").toList

/-- The substring `var models` searched for line by line. -/
def varModels : List Char := ("var models").toList

/-- The sequential text rewriting of `get_supported_models` applied to the
matched line, followed by the JSON parse (lines 110-116 of the source):
strip the `var models =` prefix, turn single quotes into double quotes,
drop the comma before a closing bracket, drop semicolons, strip whitespace,
`json.loads`.  `none` models the JSON parse raising. -/
def transformLine (l : List Char) : Option (List (List Char)) :=
  json_loads_strings
    (pyStrip
      (replaceAll ([';']) []
        (replaceAll ([',', ']']) ([']'])
          (replaceAll ([sqc]) ([dqc])
            (replaceAll varModelsEq [] l)))))

/-- Embedding of `get_supported_models` after the network fetch and XML
parse: the input is the text of the distribution document's installer
script, scanned line by line for the first line containing `var models`;
absence of such a line yields the empty list, otherwise the line is
rewritten and parsed as JSON (`none` = the parse raised). -/
def get_supported_models (script : List Char) : Option (List (List Char)) :=
  match (splitLines script).find? (fun l => containsSub varModels l) with
  | none => some []
  | some models_js => transformLine models_js

/-- A package entry of a catalog product: the source only reads its `URL`
field. -/
structure Package where
  URL : String
deriving DecidableEq

/-- A catalog product: its list of packages and its mapping of localized
distribution-document URLs (a dictionary, embedded as an association list
with unique keys and first-match lookup). -/
structure Product where
  Packages : List Package
  Distributions : List (String × String)
deriving DecidableEq

/-- The Apple software catalog: the `Products` dictionary, embedded as an
association list whose order is the dictionary's iteration order. -/
structure Catalog where
  Products : List (String × Product)
deriving DecidableEq

/-- Python dictionary lookup `d[k]` on an association list (first match);
`none` models a `KeyError`. -/
def lookupStr (k : String) : List (String × String) → Option String
  | [] => none
  | (k1, v) :: rest => if k1 = k then some v else lookupStr k rest

/-- Python `str.endswith(suffix)`, via the character lists (kept
list-based so that concrete runs reduce in the kernel). -/
def pyEndsWith (s suffix : String) : Bool :=
  (suffix.toList).isSuffixOf (s.toList)

/-- The literal URL suffix that qualifies a package as a BootCamp candidate. -/
def bootCampSuffix : String := "BootCampESD.pkg"

/-- The inner loop of `find` (lines 157-169): walk a product's packages,
skip those whose URL does not end in `BootCampESD.pkg`, and for the rest
fetch the English distribution (`none` on the lookup models a `KeyError`)
and its supported models (`sm durl = none` models `get_supported_models`
raising), collecting the URL when the model is a member. -/
def collectPackages (sm : String → Option (List String)) (model : String)
    (dists : List (String × String)) : List Package → Except String (List String)
  | [] => .ok []
  | pkg :: rest =>
    if pyEndsWith pkg.URL bootCampSuffix then
      match lookupStr ("English") dists with
      | none => .error "KeyError: English"
      | some durl =>
        match sm durl with
        | none => .error "get_supported_models raised"
        | some ms =>
          match collectPackages sm model dists rest with
          | .error e => .error e
          | .ok urls => .ok (if model ∈ ms then pkg.URL :: urls else urls)
    else collectPackages sm model dists rest

/-- The outer loop of `find` (line 156): walk the catalog's products in
iteration order, concatenating the URLs collected from each product's
packages. -/
def collectProducts (sm : String → Option (List String)) (model : String) :
    List (String × Product) → Except String (List String)
  | [] => .ok []
  | (_, product) :: rest =>
    match collectPackages sm model product.Distributions product.Packages with
    | .error e => .error e
    | .ok urls1 =>
      match collectProducts sm model rest with
      | .error e => .error e
      | .ok urls2 => .ok (urls1 ++ urls2)

/-- The list `package_urls` computed by `find` over a catalog, given the
model string and the world of distribution documents `sm` (mapping a
distribution URL to its supported models, `none` = the fetch or parse
raised). -/
def findPackageURLs (sm : String → Option (List String)) (model : String)
    (catalog : Catalog) : Except String (List String) :=
  collectProducts sm model catalog.Products

/-- The three ways `find` reports its result list (lines 172-198). -/
inductive FindOutcome where
  | success (url : String)
  | ambiguous (urls : List String)
  | failure
deriving DecidableEq

/-- The branch taken on the cardinality of `package_urls`: the source tests
`len(package_urls) == 1`, then truthiness (non-emptiness), then falls to
the no-match branch. -/
def findOutcome : List String → FindOutcome
  | [url] => .success url
  | [] => .failure
  | urls => .ambiguous urls

/-- The process exit status of `find`: the no-match branch calls `exit(1)`;
the other branches return normally and the process ends with status 0. -/
def findExitCode : FindOutcome → Nat
  | .failure => 1
  | _ => 0

/-- Embedding of the whole `find` operation after the catalog fetch: the
collected URL list, its reported outcome and the exit status (errors model
unhandled exceptions that abort the process). -/
def find (sm : String → Option (List String)) (model : String)
    (catalog : Catalog) : Except String (FindOutcome × Nat) :=
  match findPackageURLs sm model catalog with
  | .error e => .error e
  | .ok urls => .ok (findOutcome urls, findExitCode (findOutcome urls))

/-- Whether a package qualifies for collection: the URL ends in
`BootCampESD.pkg`, the English distribution lookup and the supported-model
extraction succeed, and the model is a member. -/
def qualifies (sm : String → Option (List String)) (model : String)
    (dists : List (String × String)) (pkg : Package) : Bool :=
  pyEndsWith pkg.URL bootCampSuffix &&
    (match lookupStr ("English") dists with
     | none => false
     | some durl =>
       match sm durl with
       | none => false
       | some ms => decide (model ∈ ms))

/-- The URLs of qualifying packages across a catalog, in catalog iteration
order (used to state the characterization of `find`). -/
def qualifyingURLs (sm : String → Option (List String)) (model : String)
    (catalog : Catalog) : List String :=
  (catalog.Products.map
    (fun pr => ((pr.2.Packages.filter (qualifies sm model pr.2.Distributions)).map Package.URL))).flatten

/-- The outcome of launching one external command: whether `Popen`
succeeded (`launched`, false = `OSError` with message `osErr`), and the
process's exit code and captured output streams. -/
structure CmdResult where
  launched : Bool
  osErr : String
  returncode : Int
  stdout : String
  stderr : String
deriving DecidableEq

/-- Exceptions the `run` wrapper can raise.  `calledProcessError` mirrors
the fields of `subprocess.CalledProcessError.__init__(self, returncode,
cmd, output=None)` — its first two arguments are required positional
parameters.  `typeError` is the interpreter's error for a call that does
not match a signature; it carries no diagnostic payload. -/
inductive PyExn where
  | typeError
  | calledProcessError (returncode : Int) (cmd : List String) (output : Option String)
deriving DecidableEq

/-- The Python call `subprocess.CalledProcessError(x)` with a single
positional argument, as written at lines 50 and 53 of the source: the
constructor requires `returncode` and `cmd`, so evaluating the call raises
`TypeError` before the `raise` statement acts, and the argument `x` (the
stderr text or the `OSError`) is discarded. -/
def CalledProcessError1 (x : String) : PyExn :=
  PyExn.typeError

/-- Embedding of the `run` wrapper (lines 42-55) with the actual stdlib
constructor semantics: on an `OSError` from `Popen` the code evaluates
`CalledProcessError(e)` and on a non-zero exit `CalledProcessError(stderr)`
— both mis-invocations raise a bare `TypeError`, losing the diagnostic; a
zero exit returns the command's stdout. -/
def run (r : CmdResult) : Except PyExn String :=
  if r.launched = false then .error (CalledProcessError1 r.osErr)
  else if r.returncode ≠ 0 then .error (CalledProcessError1 r.stderr)
  else .ok r.stdout

/-- Embedding of `os.path.dirname` for POSIX paths: everything up to the
last slash, with trailing slashes stripped unless the head is all slashes. -/
def pyDirname (p : String) : String :=
  let cs := p.toList
  let head := (cs.reverse.dropWhile (fun c => c ≠ '/')).reverse
  if head ≠ [] ∧ ¬ (head.all (fun c => c = '/')) then
    String.mk ((head.reverse.dropWhile (fun c => c = '/')).reverse)
  else
    String.mk head

/-- The mount point checked and used by `build`. -/
def volumePath : String := "/Volumes/Boot Camp"

/-- Observable steps of the `build` operation, in the order performed:
console prints, temporary-directory creation, external commands (with
whether they succeeded), the descriptor-XML parse, the archive creation
and the cleanup deletion. -/
inductive BuildEvent where
  | printLine (msg : String)
  | mkdtemp (dir : String)
  | runCmd (cmd : List String) (ok : Bool)
  | parseXML (path : String) (ok : Bool)
  | makeArchive (base : String) (fmt : String) (root : String) (ok : Bool)
  | rmtree (dir : String)
deriving DecidableEq

/-- How a `build` invocation ends: an explicit `exit(code)`, an unhandled
exception, or normal completion reporting the archive path. -/
inductive BuildResult where
  | exited (code : Nat)
  | raised
  | finished (archiveZip : String)
deriving DecidableEq

/-- The world a `build` run executes against: the two precondition checks,
the temporary directory `mkdtemp` yields, and the outcome of each fallible
step (`none` / `false` = that step raises). -/
structure BuildWorld where
  volumeExists : Bool
  packageIsFile : Bool
  tmpdir : String
  expandResult : Option String
  extractResult : Option String
  attachResult : Option String
  xmlVersion : Option String
  archiveOk : Bool
  detachResult : Option String
deriving DecidableEq

/-- The `pkgutil --expand` command of step 4. -/
def expandCmd (w : BuildWorld) (pkg : String) : List String :=
  ["pkgutil", "--expand", pkg, w.tmpdir ++ "/BootCampESD"]

/-- The `tar` extraction command of step 5. -/
def extractCmd (w : BuildWorld) : List String :=
  ["tar", "xfz", w.tmpdir ++ "/BootCampESD/Payload", "--strip", "3", "-C", w.tmpdir]

/-- The `hdiutil attach` command of step 6. -/
def attachCmd (w : BuildWorld) : List String :=
  ["hdiutil", "attach", "-quiet", w.tmpdir ++ "/BootCamp/WindowsSupport.dmg"]

/-- The `hdiutil detach` command of step 10. -/
def detachCmd : List String :=
  ["hdiutil", "detach", "-quiet", volumePath]

/-- The path of the version descriptor XML on the mounted volume. -/
def bootCampXmlPath : String := "/Volumes/Boot Camp/BootCamp/BootCamp.xml"

/-- Embedding of the `build` operation (lines 201-298) as the ordered trace
of its observable steps together with how the run ends.  Each fallible
step that fails appears in the trace as its failed attempt and aborts the
pipeline (an unhandled exception); nothing after it runs. -/
def build (w : BuildWorld) (pkg : String) : List BuildEvent × BuildResult :=
  if w.volumeExists then
    ([.printLine ("The Boot Camp volume (/Volumes/Boot Camp) already appears to be mounted"),
      .printLine ("Please eject this volume and try again")], .exited 1)
  else if ¬ w.packageIsFile then
    ([.printLine ("Unable to find file " ++ pkg)], .exited 1)
  else
    let evs0 := [BuildEvent.mkdtemp w.tmpdir,
      .printLine ("Using temporary directory " ++ w.tmpdir),
      .printLine ("Extracting the BootCampESD package")]
    match w.expandResult with
    | none => (evs0 ++ [.runCmd (expandCmd w pkg) false], .raised)
    | some _ =>
      let evs1 := evs0 ++ [BuildEvent.runCmd (expandCmd w pkg) true,
        .printLine ("Extracting the Payload from the BootCampESD package")]
      match w.extractResult with
      | none => (evs1 ++ [.runCmd (extractCmd w) false], .raised)
      | some _ =>
        let evs2 := evs1 ++ [BuildEvent.runCmd (extractCmd w) true,
          .printLine ("Attaching the Windows Support DMG image")]
        match w.attachResult with
        | none => (evs2 ++ [.runCmd (attachCmd w) false], .raised)
        | some _ =>
          let evs3 := evs2 ++ [BuildEvent.runCmd (attachCmd w) true]
          match w.xmlVersion with
          | none => (evs3 ++ [.parseXML bootCampXmlPath false], .raised)
          | some v =>
            let evs4 := evs3 ++ [BuildEvent.parseXML bootCampXmlPath true,
              .printLine ("Determined your BootCamp version to be " ++ v),
              .printLine ("Creating a ZIP archive of the BootCamp Windows installer")]
            let base := pyDirname pkg ++ "/BootCamp " ++ v
            if ¬ w.archiveOk then
              (evs4 ++ [.makeArchive base ("zip") volumePath false], .raised)
            else
              let evs5 := evs4 ++ [BuildEvent.makeArchive base ("zip") volumePath true,
                .printLine ("Detaching the Windows Support DMG image")]
              match w.detachResult with
              | none => (evs5 ++ [.runCmd detachCmd false], .raised)
              | some _ =>
                (evs5 ++ [BuildEvent.runCmd detachCmd true,
                  .printLine ("Cleaning up temporary directory"),
                  .rmtree w.tmpdir,
                  .printLine ("All processing was completed successfully!"),
                  .printLine ("Your BootCamp archive is available at " ++
                    String.mk [dqc] ++ base ++ ".zip" ++ String.mk [dqc])],
                 .finished (base ++ ".zip"))

/-- Whether a `build` event touches the filesystem or invokes an external
tool (everything except console output). -/
def isExternalEvent : BuildEvent → Bool
  | .printLine _ => false
  | _ => true

/-- Scan for an occurrence of the two-character pattern `,]` (the pattern
rewritten by the third replacement of `get_supported_models`). -/
def hasCB : List Char → Bool
  | [] => false
  | a :: l => (decide (a = ',') && decide (l.head? = some ']')) || hasCB l

/-- A JavaScript single-quoted string literal, as it appears in a model
array literal. -/
def quoteS (m : List Char) : List Char := sqc :: (m ++ [sqc])

/-- A JSON double-quoted string literal (image of `quoteS` under the
single-to-double-quote replacement). -/
def quoteD (m : List Char) : List Char := dqc :: (m ++ [dqc])

/-- The body of a JavaScript array literal of single-quoted strings with
no trailing comma: `'A','B'`. -/
def ibody : List (List Char) → List Char
  | [] => []
  | [m] => quoteS m
  | m :: m2 :: rest => quoteS m ++ ',' :: ibody (m2 :: rest)

/-- The body of the corresponding JSON array literal: `"A","B"`. -/
def jbody : List (List Char) → List Char
  | [] => []
  | [m] => quoteD m
  | m :: m2 :: rest => quoteD m ++ ',' :: jbody (m2 :: rest)

/-- The line `var models = ['A','B'];` declaring the given model strings,
with no comma before the closing bracket. -/
def c10line (models : List (List Char)) : List Char :=
  varModelsEq ++ ' ' :: '[' :: (ibody models ++ [']', ';'])

/-- Characters of a model string under which the text rewriting of
`get_supported_models` is faithful: no single or double quote, no
backslash, no semicolon, no equals sign, and no control character. -/
def c10okChar (c : Char) : Bool :=
  c ≠ sqc && c ≠ dqc && c ≠ bslc && c ≠ ';' && c ≠ '=' && decide (32 ≤ c.toNat)

/-- A model string the rewriting handles faithfully: every character is
admissible and the string does not contain the substring `,]`. -/
def c10okModel (m : List Char) : Bool := m.all c10okChar && ! hasCB m

/-- Claim C2: the find operation branches three ways on the cardinality of
the matched URL list: exactly one match is reported as success with that
URL, more than one match is reported as ambiguous (not an error), and zero
matches is reported as failure; the process exits with status 1 only in
the zero case and status 0 otherwise. -/
theorem C2_find_cardinality_branches (urls : List String) :
    (∀ u, urls = [u] →
      findOutcome urls = FindOutcome.success u ∧ findExitCode (findOutcome urls) = 0) ∧
    (1 < urls.length →
      findOutcome urls = FindOutcome.ambiguous urls ∧ findExitCode (findOutcome urls) = 0) ∧
    (urls = [] →
      findOutcome urls = FindOutcome.failure ∧ findExitCode (findOutcome urls) = 1) := by
  cases urls with
  | nil => simp [findOutcome, findExitCode]
  | cons a t =>
    cases t with
    | nil =>
      refine ⟨?_, ?_, ?_⟩
      · intro u hu
        simp only [List.cons.injEq, and_true] at hu
        subst hu
        exact ⟨rfl, rfl⟩
      · intro h
        simp at h
      · intro h
        simp at h
    | cons b t2 =>
      refine ⟨?_, ?_, ?_⟩
      · intro u hu
        simp at hu
      · intro _
        exact ⟨rfl, rfl⟩
      · intro h
        simp at h

/-- Witness for C2 at concrete inputs: a singleton list is reported as
success with exit status 0. -/
theorem C2_find_cardinality_branches_w :
    findOutcome ["http://x/BootCampESD.pkg"] = FindOutcome.success ("http://x/BootCampESD.pkg") ∧
    findExitCode (findOutcome ["http://x/BootCampESD.pkg"]) = 0 :=
  (C2_find_cardinality_branches ["http://x/BootCampESD.pkg"]).1 ("http://x/BootCampESD.pkg") rfl

/-- Claim C4: the text rewriting applied to the exact line
`var models = [<sq>MacBookPro9,1<sq>,<sq>MacBookPro9,2<sq>,];` (where
`<sq>` is the single-quote character, built here by mapping `!` to it)
followed by the JSON parse yields exactly the two model strings. -/
theorem C4_literal_line_transform :
    transformLine ((("var models = [!MacBookPro9,1!,!MacBookPro9,2!,];").toList).map
      (fun c => if c = '!' then sqc else c)) =
      some [("MacBookPro9,1").toList, ("MacBookPro9,2").toList] := by
  decide

/-- Counterexample for claim C5: the extractor is not exception-free on
deviating `var models` lines.  On the script consisting of the single line
`var models = oops;` the rewriting produces `oops`, which is not valid
JSON, so `json.loads` raises (modelled by `none`) instead of silently
yielding zero or malformed matches. -/
theorem C5_extractor_raises_cex :
    get_supported_models (("var models = oops;").toList) = none := by
  decide

/-- Claim C5 as amended: the extractor returns the empty list, without
failing, for every script containing no `var models` line; but for a line
that deviates from the expected format the JSON parse can raise, as on
`var models = oops;`. -/
theorem C5_amended_permissive_fallback (script : List Char)
    (h : ∀ l ∈ splitLines script, containsSub varModels l = false) :
    get_supported_models script = some [] ∧
    get_supported_models (("var models = oops;").toList) = none := by
  constructor
  · have hn : (splitLines script).find? (fun l => containsSub varModels l) = none := by
      rw [List.find?_eq_none]
      intro x hx
      simp [h x hx]
    simp [get_supported_models, hn]
  · decide

/-- Witness for C5 at a concrete script with no `var models` line. -/
theorem C5_amended_permissive_fallback_w :
    get_supported_models (("no model declarations\nhere at all").toList) = some [] ∧
    get_supported_models (("var models = oops;").toList) = none :=
  C5_amended_permissive_fallback (("no model declarations\nhere at all").toList) (by decide)

/-- Claim C8, evaluated at the failing input (the code contradicts the
claim's error path): for a command that exits non-zero with stderr
`diagnostic text`, the wrapper raises a bare `TypeError` — the mis-invoked
`CalledProcessError(stderr)` constructor, not an error carrying the
diagnostic; a launch failure raises the same bare `TypeError`; only the
zero-exit half of the claim holds, returning the command's stdout, and the
wrapper does not return normally on the non-zero exit. -/
theorem C8_run_wrapper_bug :
    run ⟨true, "", 2, "out", "diagnostic text"⟩ = Except.error PyExn.typeError ∧
    run ⟨false, "launch failed", 0, "", ""⟩ = Except.error PyExn.typeError ∧
    run ⟨true, "", 0, "out", ""⟩ = Except.ok ("out") ∧
    CalledProcessError1 ("diagnostic text") = PyExn.typeError :=
  ⟨rfl, rfl, rfl, rfl⟩

/-- Claim C6: the build operation checks the mounted volume first — when
`/Volumes/Boot Camp` exists it exits with status 1 having performed no
filesystem or external-tool step (regardless of the package check), and
when the volume is absent but the package path is not a regular file it
exits with status 1 likewise before creating any temporary directory. -/
theorem C6_build_precondition_order (w : BuildWorld) (pkg : String) :
    (w.volumeExists = true →
      build w pkg =
        ([BuildEvent.printLine
            ("The Boot Camp volume (/Volumes/Boot Camp) already appears to be mounted"),
          BuildEvent.printLine ("Please eject this volume and try again")],
         BuildResult.exited 1) ∧
      ∀ e ∈ (build w pkg).1, isExternalEvent e = false) ∧
    (w.volumeExists = false → w.packageIsFile = false →
      build w pkg =
        ([BuildEvent.printLine ("Unable to find file " ++ pkg)], BuildResult.exited 1) ∧
      ∀ e ∈ (build w pkg).1, isExternalEvent e = false) := by
  constructor
  · intro hv
    have hb : build w pkg =
        ([BuildEvent.printLine
            ("The Boot Camp volume (/Volumes/Boot Camp) already appears to be mounted"),
          BuildEvent.printLine ("Please eject this volume and try again")],
         BuildResult.exited 1) := by
      simp [build, hv]
    refine ⟨hb, ?_⟩
    rw [hb]
    intro e he
    simp only [List.mem_cons, List.not_mem_nil, or_false] at he
    rcases he with he | he <;> simp [he, isExternalEvent]
  · intro hv hp
    have hb : build w pkg =
        ([BuildEvent.printLine ("Unable to find file " ++ pkg)], BuildResult.exited 1) := by
      simp [build, hv, hp]
    refine ⟨hb, ?_⟩
    rw [hb]
    intro e he
    simp only [List.mem_cons, List.not_mem_nil, or_false] at he
    simp [he, isExternalEvent]

/-- Witness for C6 at a concrete world in which the volume is mounted. -/
theorem C6_build_precondition_order_w :
    build ⟨true, false, "/tmp/c", some "", some "", some "", some "1", true, some ""⟩
        ("/Users/x/pkg.pkg") =
      ([BuildEvent.printLine
          ("The Boot Camp volume (/Volumes/Boot Camp) already appears to be mounted"),
        BuildEvent.printLine ("Please eject this volume and try again")],
       BuildResult.exited 1) :=
  ((C6_build_precondition_order
      ⟨true, false, "/tmp/c", some "", some "", some "", some "1", true, some ""⟩
      ("/Users/x/pkg.pkg")).1 rfl).1

/-- Claim C7: on a successful build run the output archive path is the
directory of the original package joined with `BootCamp `, the version
string parsed from the mounted volume's descriptor XML, and `.zip`; the
ZIP archive is created at exactly that base path. -/
theorem C7_build_archive_name (w : BuildWorld) (pkg v : String)
    (h1 : w.volumeExists = false) (h2 : w.packageIsFile = true)
    (h3 : w.expandResult ≠ none) (h4 : w.extractResult ≠ none)
    (h5 : w.attachResult ≠ none) (h6 : w.xmlVersion = some v)
    (h7 : w.archiveOk = true) (h8 : w.detachResult ≠ none) :
    (build w pkg).2 = BuildResult.finished (pyDirname pkg ++ "/BootCamp " ++ v ++ ".zip") ∧
    BuildEvent.makeArchive (pyDirname pkg ++ "/BootCamp " ++ v) ("zip") volumePath true
      ∈ (build w pkg).1 := by
  obtain ⟨s3, e3⟩ := Option.ne_none_iff_exists'.mp h3
  obtain ⟨s4, e4⟩ := Option.ne_none_iff_exists'.mp h4
  obtain ⟨s5, e5⟩ := Option.ne_none_iff_exists'.mp h5
  obtain ⟨s8, e8⟩ := Option.ne_none_iff_exists'.mp h8
  constructor
  · simp [build, h1, h2, e3, e4, e5, h6, h7, e8]
  · simp [build, h1, h2, e3, e4, e5, h6, h7, e8]

/-- Witness for C7: with version `6.1.6259` over the package
`/Users/x/pkg.pkg` the archive lands at `/Users/x/BootCamp 6.1.6259.zip`. -/
theorem C7_build_archive_name_w :
    pyDirname ("/Users/x/pkg.pkg") ++ "/BootCamp " ++ "6.1.6259" ++ ".zip" =
      "/Users/x/BootCamp 6.1.6259.zip" ∧
    ((build ⟨false, true, "/tmp/c", some "", some "", some "", some "6.1.6259", true, some ""⟩
        ("/Users/x/pkg.pkg")).2 =
      BuildResult.finished
        (pyDirname ("/Users/x/pkg.pkg") ++ "/BootCamp " ++ "6.1.6259" ++ ".zip") ∧
     BuildEvent.makeArchive (pyDirname ("/Users/x/pkg.pkg") ++ "/BootCamp " ++ "6.1.6259")
        ("zip") volumePath true
       ∈ (build ⟨false, true, "/tmp/c", some "", some "", some "", some "6.1.6259", true, some ""⟩
          ("/Users/x/pkg.pkg")).1) :=
  ⟨by decide,
   C7_build_archive_name
     ⟨false, true, "/tmp/c", some "", some "", some "", some "6.1.6259", true, some ""⟩
     ("/Users/x/pkg.pkg") ("6.1.6259") rfl rfl (by decide) (by decide) (by decide) rfl rfl
     (by decide)⟩

/-- Claim C9: when a build run fails after the temporary directory has been
created and before the cleanup step (any of the expand, extract, attach or
detach invocations raising, the descriptor-XML parse failing, or the
archive creation failing), the run ends in an unhandled exception, the
temporary directory is never deleted, and no successful detach of the
volume occurs. -/
theorem C9_build_failure_skips_cleanup (w : BuildWorld) (pkg : String)
    (h1 : w.volumeExists = false) (h2 : w.packageIsFile = true)
    (hfail : w.expandResult = none ∨ w.extractResult = none ∨ w.attachResult = none ∨
      w.xmlVersion = none ∨ w.archiveOk = false ∨ w.detachResult = none) :
    (build w pkg).2 = BuildResult.raised ∧
    (∀ d, BuildEvent.rmtree d ∉ (build w pkg).1) ∧
    BuildEvent.runCmd detachCmd true ∉ (build w pkg).1 := by
  cases e1 : w.expandResult with
  | none =>
    simp [build, h1, h2, e1, detachCmd, expandCmd]
  | some s1 =>
    cases e2 : w.extractResult with
    | none =>
      simp [build, h1, h2, e1, e2, detachCmd, expandCmd, extractCmd]
    | some s2 =>
      cases e3 : w.attachResult with
      | none =>
        simp [build, h1, h2, e1, e2, e3, detachCmd, expandCmd, extractCmd, attachCmd]
      | some s3 =>
        cases e4 : w.xmlVersion with
        | none =>
          simp [build, h1, h2, e1, e2, e3, e4, detachCmd, expandCmd, extractCmd, attachCmd]
        | some v =>
          cases e5 : w.archiveOk with
          | false =>
            simp [build, h1, h2, e1, e2, e3, e4, e5, detachCmd, expandCmd, extractCmd,
              attachCmd]
          | true =>
            cases e6 : w.detachResult with
            | none =>
              simp [build, h1, h2, e1, e2, e3, e4, e5, e6, detachCmd, expandCmd, extractCmd,
                attachCmd]
            | some s6 =>
              rcases hfail with h | h | h | h | h | h <;> simp_all

/-- Witness for C9: a world in which the tar extraction raises. -/
theorem C9_build_failure_skips_cleanup_w :
    (build ⟨false, true, "/tmp/c", some "", none, some "", some "1", true, some ""⟩
        ("/Users/x/pkg.pkg")).2 = BuildResult.raised ∧
    (∀ d, BuildEvent.rmtree d ∉
      (build ⟨false, true, "/tmp/c", some "", none, some "", some "1", true, some ""⟩
        ("/Users/x/pkg.pkg")).1) ∧
    BuildEvent.runCmd detachCmd true ∉
      (build ⟨false, true, "/tmp/c", some "", none, some "", some "1", true, some ""⟩
        ("/Users/x/pkg.pkg")).1 :=
  C9_build_failure_skips_cleanup
    ⟨false, true, "/tmp/c", some "", none, some "", some "1", true, some ""⟩
    ("/Users/x/pkg.pkg") rfl rfl (Or.inr (Or.inl rfl))

/-- Unfolding of the qualification test: a package qualifies exactly when
its URL has the BootCamp suffix and the English distribution lookup and
model extraction succeed with the model a member. -/
theorem qualifies_iff (sm : String → Option (List String)) (model : String)
    (dists : List (String × String)) (pkg : Package) :
    qualifies sm model dists pkg = true ↔
      (pyEndsWith pkg.URL bootCampSuffix = true ∧
       ∃ durl ms, lookupStr ("English") dists = some durl ∧ sm durl = some ms ∧
         model ∈ ms) := by
  unfold qualifies
  cases hl : lookupStr ("English") dists with
  | none => simp
  | some durl =>
    cases hs : sm durl with
    | none => simp [hs]
    | some ms => simp [hs]

/-- The inner package loop, when it does not raise, returns the URLs of
exactly the qualifying packages, in order. -/
theorem collectPackages_ok (sm : String → Option (List String)) (model : String)
    (dists : List (String × String)) :
    ∀ pkgs urls, collectPackages sm model dists pkgs = Except.ok urls →
      urls = (pkgs.filter (qualifies sm model dists)).map Package.URL := by
  intro pkgs
  induction pkgs with
  | nil =>
    intro urls h
    simp [collectPackages] at h
    simp [h.symm]
  | cons pkg rest ih =>
    intro urls h
    by_cases he : pyEndsWith pkg.URL bootCampSuffix
    · cases hl : lookupStr ("English") dists with
      | none => simp [collectPackages, he, hl] at h
      | some durl =>
        cases hs : sm durl with
        | none => simp [collectPackages, he, hl, hs] at h
        | some ms =>
          cases hr : collectPackages sm model dists rest with
          | error e => simp [collectPackages, he, hl, hs, hr] at h
          | ok urls2 =>
            have hrest := ih urls2 hr
            simp only [collectPackages, he, if_true, hl, hs, hr] at h
            have hq : qualifies sm model dists pkg = decide (model ∈ ms) := by
              simp [qualifies, he, hl, hs]
            by_cases hm : model ∈ ms
            · simp [hm] at h
              simp [List.filter_cons, hq, hm, ← h, hrest]
            · simp [hm] at h
              simp [List.filter_cons, hq, hm, ← h, hrest]
    · have h2 : collectPackages sm model dists (pkg :: rest) =
          collectPackages sm model dists rest := by
        simp [collectPackages, he]
      rw [h2] at h
      have hq : qualifies sm model dists pkg = false := by
        simp [qualifies, he]
      simp [List.filter_cons, hq, ih urls h]

/-- The outer product loop, when it does not raise, returns the
concatenation of each product's qualifying URLs in catalog order. -/
theorem collectProducts_ok (sm : String → Option (List String)) (model : String) :
    ∀ prods urls, collectProducts sm model prods = Except.ok urls →
      urls = (prods.map
        (fun pr => ((pr.2.Packages.filter (qualifies sm model pr.2.Distributions)).map
          Package.URL))).flatten := by
  intro prods
  induction prods with
  | nil =>
    intro urls h
    simp [collectProducts] at h
    simp [h.symm]
  | cons pr rest ih =>
    intro urls h
    cases h1 : collectPackages sm model pr.2.Distributions pr.2.Packages with
    | error e =>
      obtain ⟨i, p⟩ := pr
      simp [collectProducts, h1] at h
    | ok urls1 =>
      cases h2 : collectProducts sm model rest with
      | error e =>
        obtain ⟨i, p⟩ := pr
        simp [collectProducts, h1, h2] at h
      | ok urls2 =>
        obtain ⟨i, p⟩ := pr
        simp only [collectProducts, h1, h2, Except.ok.injEq] at h
        simp only [List.map_cons, List.flatten_cons]
        rw [← h, collectPackages_ok sm model p.Distributions p.Packages urls1 h1,
          ih urls2 h2]

/-- The URL list computed by `find`, when the run does not raise, is the
list of qualifying URLs in catalog iteration order. -/
theorem findPackageURLs_ok (sm : String → Option (List String)) (model : String)
    (catalog : Catalog) (urls : List String)
    (h : findPackageURLs sm model catalog = Except.ok urls) :
    urls = qualifyingURLs sm model catalog :=
  collectProducts_ok sm model catalog.Products urls h

/-- Claim C1: on a run of find that does not raise, a URL is collected if
and only if it is the URL of a catalog package ending in `BootCampESD.pkg`
whose owning product's English-locale distribution yields a
supported-model list containing the target model; in particular when the
catalog's qualifying-URL list is a singleton, find yields exactly that
URL. -/
theorem C1_find_collects_iff (sm : String → Option (List String)) (model : String)
    (catalog : Catalog) (urls : List String)
    (h : findPackageURLs sm model catalog = Except.ok urls) :
    (∀ url, url ∈ urls ↔
      ∃ pr ∈ catalog.Products, ∃ pkg ∈ pr.2.Packages,
        pkg.URL = url ∧ pyEndsWith url bootCampSuffix = true ∧
        ∃ durl ms, lookupStr ("English") pr.2.Distributions = some durl ∧
          sm durl = some ms ∧ model ∈ ms) ∧
    (∀ u, qualifyingURLs sm model catalog = [u] → urls = [u]) := by
  have hq := findPackageURLs_ok sm model catalog urls h
  constructor
  · intro url
    rw [hq]
    simp only [qualifyingURLs, List.mem_flatten, List.mem_map]
    constructor
    · rintro ⟨b, ⟨pr, hpr, rfl⟩, hb⟩
      simp only [List.mem_map, List.mem_filter] at hb
      obtain ⟨pkg, ⟨hpkg, hql⟩, rfl⟩ := hb
      have hc := (qualifies_iff sm model pr.2.Distributions pkg).mp hql
      exact ⟨pr, hpr, pkg, hpkg, rfl, hc.1, hc.2⟩
    · rintro ⟨pr, hpr, pkg, hpkg, rfl, hsuf, durl, ms, hl, hs, hm⟩
      refine ⟨(pr.2.Packages.filter (qualifies sm model pr.2.Distributions)).map
        Package.URL, ⟨pr, hpr, rfl⟩, ?_⟩
      simp only [List.mem_map, List.mem_filter]
      exact ⟨pkg, ⟨hpkg,
        (qualifies_iff sm model pr.2.Distributions pkg).mpr
          ⟨hsuf, durl, ms, hl, hs, hm⟩⟩, rfl⟩
  · intro u h2
    rw [hq, h2]

/-- Witness for C1 on a one-product catalog whose only package qualifies:
find collects exactly that URL. -/
theorem C1_find_collects_iff_w :
    (∀ url, url ∈ ["http://a/BootCampESD.pkg"] ↔
      ∃ pr ∈ (Catalog.mk [("p1", Product.mk [Package.mk ("http://a/BootCampESD.pkg")]
          [("English", "http://a/dist")])]).Products,
        ∃ pkg ∈ pr.2.Packages,
          pkg.URL = url ∧ pyEndsWith url bootCampSuffix = true ∧
          ∃ durl ms, lookupStr ("English") pr.2.Distributions = some durl ∧
            (fun u => if u = "http://a/dist" then some ["MacBookPro9,1"] else none) durl =
              some ms ∧ "MacBookPro9,1" ∈ ms) ∧
    (∀ u, qualifyingURLs
        (fun u => if u = "http://a/dist" then some ["MacBookPro9,1"] else none)
        ("MacBookPro9,1")
        (Catalog.mk [("p1", Product.mk [Package.mk ("http://a/BootCampESD.pkg")]
          [("English", "http://a/dist")])]) = [u] →
      ["http://a/BootCampESD.pkg"] = [u]) :=
  C1_find_collects_iff
    (fun u => if u = "http://a/dist" then some ["MacBookPro9,1"] else none)
    ("MacBookPro9,1")
    (Catalog.mk [("p1", Product.mk [Package.mk ("http://a/BootCampESD.pkg")]
      [("English", "http://a/dist")])])
    ["http://a/BootCampESD.pkg"] (by rfl)

/-- Claim C3: for a catalog of two distinct products, each with a single
qualifying package whose distribution supports the target model, find
collects both URLs in catalog iteration order and reports them as
ambiguous (exit status 0) rather than erroring. -/
theorem C3_two_products_ambiguous (sm : String → Option (List String)) (model : String)
    (i1 i2 : String) (p1 p2 : Product) (pk1 pk2 : Package)
    (d1 d2 : String) (ms1 ms2 : List String)
    (hne : i1 ≠ i2)
    (hp1 : p1.Packages = [pk1]) (hp2 : p2.Packages = [pk2])
    (he1 : pyEndsWith pk1.URL bootCampSuffix = true)
    (he2 : pyEndsWith pk2.URL bootCampSuffix = true)
    (hl1 : lookupStr ("English") p1.Distributions = some d1)
    (hl2 : lookupStr ("English") p2.Distributions = some d2)
    (hs1 : sm d1 = some ms1) (hs2 : sm d2 = some ms2)
    (hm1 : model ∈ ms1) (hm2 : model ∈ ms2) :
    findPackageURLs sm model (Catalog.mk [(i1, p1), (i2, p2)]) =
      Except.ok [pk1.URL, pk2.URL] ∧
    find sm model (Catalog.mk [(i1, p1), (i2, p2)]) =
      Except.ok (FindOutcome.ambiguous [pk1.URL, pk2.URL], 0) := by
  have h1 : findPackageURLs sm model (Catalog.mk [(i1, p1), (i2, p2)]) =
      Except.ok [pk1.URL, pk2.URL] := by
    simp [findPackageURLs, collectProducts, collectPackages, hp1, hp2, he1, he2,
      hl1, hl2, hs1, hs2, hm1, hm2]
  refine ⟨h1, ?_⟩
  unfold find
  rw [h1]
  rfl

/-- Witness for C3 at a fully concrete two-product catalog. -/
theorem C3_two_products_ambiguous_w :
    findPackageURLs
      (fun u => if u = "http://d1" then some ["M1"] else
        if u = "http://d2" then some ["M1", "M2"] else none)
      ("M1")
      (Catalog.mk
        [("p1", Product.mk [Package.mk ("http://a/BootCampESD.pkg")]
            [("English", "http://d1")]),
         ("p2", Product.mk [Package.mk ("http://b/BootCampESD.pkg")]
            [("English", "http://d2")])]) =
      Except.ok ["http://a/BootCampESD.pkg", "http://b/BootCampESD.pkg"] ∧
    find
      (fun u => if u = "http://d1" then some ["M1"] else
        if u = "http://d2" then some ["M1", "M2"] else none)
      ("M1")
      (Catalog.mk
        [("p1", Product.mk [Package.mk ("http://a/BootCampESD.pkg")]
            [("English", "http://d1")]),
         ("p2", Product.mk [Package.mk ("http://b/BootCampESD.pkg")]
            [("English", "http://d2")])]) =
      Except.ok
        (FindOutcome.ambiguous ["http://a/BootCampESD.pkg", "http://b/BootCampESD.pkg"], 0) :=
  C3_two_products_ambiguous
    (fun u => if u = "http://d1" then some ["M1"] else
      if u = "http://d2" then some ["M1", "M2"] else none)
    ("M1") ("p1") ("p2")
    (Product.mk [Package.mk ("http://a/BootCampESD.pkg")] [("English", "http://d1")])
    (Product.mk [Package.mk ("http://b/BootCampESD.pkg")] [("English", "http://d2")])
    (Package.mk ("http://a/BootCampESD.pkg")) (Package.mk ("http://b/BootCampESD.pkg"))
    ("http://d1") ("http://d2") (["M1"]) (["M1", "M2"])
    (by decide) rfl rfl (by decide) (by decide) (by decide) (by decide)
    (by decide) (by decide) (by decide) (by decide)

/-- A list is a prefix of itself followed by anything. -/
theorem isPrefixOf_append_self (p r : List Char) : p.isPrefixOf (p ++ r) = true := by
  induction p with
  | nil => simp [List.isPrefixOf]
  | cons a p ih => simp [List.isPrefixOf, ih]

/-- Every character of a matched pattern occurs in the matched text. -/
theorem mem_of_isPrefixOf :
    ∀ (p l : List Char), p.isPrefixOf l = true → ∀ c ∈ p, c ∈ l := by
  intro p
  induction p with
  | nil => simp
  | cons a p ih =>
    intro l h c hc
    cases l with
    | nil => simp [List.isPrefixOf] at h
    | cons b l =>
      simp only [List.isPrefixOf, Bool.and_eq_true, beq_iff_eq] at h
      rcases List.mem_cons.mp hc with hca | hcp
      · exact List.mem_cons.mpr (Or.inl (hca.trans h.1))
      · exact List.mem_cons.mpr (Or.inr (ih l h.2 c hcp))

/-- If some character of the pattern never occurs in the text, the text
contains no occurrence of the pattern. -/
theorem containsSub_eq_false_of_char (pat : List Char) (c : Char) (hc : c ∈ pat) :
    ∀ l, (∀ x ∈ l, x ≠ c) → containsSub pat l = false := by
  intro l
  induction l with
  | nil =>
    intro _
    cases pat with
    | nil => simp at hc
    | cons p ps => simp [containsSub]
  | cons a l ih =>
    intro h
    simp only [containsSub, Bool.or_eq_false_iff]
    constructor
    · by_contra hp
      have hmem := mem_of_isPrefixOf pat (a :: l) (by simpa using hp) c hc
      exact (h c hmem) rfl
    · exact ih (fun x hx => h x (List.mem_cons.mpr (Or.inr hx)))

/-- With enough fuel, replacement is the identity on text containing no
occurrence of the pattern. -/
theorem replaceAllF_not_contains (pat rep : List Char) :
    ∀ fuel l, l.length ≤ fuel → containsSub pat l = false →
      replaceAllF pat rep fuel l = l := by
  intro fuel
  induction fuel with
  | zero =>
    intro l hl _
    cases l with
    | nil => rfl
    | cons a l => simp at hl
  | succ fuel ih =>
    intro l hl hc
    cases l with
    | nil => rfl
    | cons a l =>
      simp only [containsSub, Bool.or_eq_false_iff] at hc
      simp only [replaceAllF, hc.1, Bool.false_eq_true, false_and, if_false]
      rw [ih l (by simpa using Nat.lt_succ_iff.mp (Nat.lt_of_lt_of_le (Nat.lt_succ_self _) hl)) hc.2]

/-- Replacement is the identity on text containing no occurrence of the
pattern. -/
theorem replaceAll_not_contains (pat rep l : List Char)
    (hc : containsSub pat l = false) : replaceAll pat rep l = l :=
  replaceAllF_not_contains pat rep l.length l (Nat.le_refl _) hc

/-- With enough fuel, replacing a single character by a single character is
a character map. -/
theorem replaceAllF_single (c d : Char) :
    ∀ fuel l, l.length ≤ fuel →
      replaceAllF [c] [d] fuel l = l.map (fun x => if x = c then d else x) := by
  intro fuel
  induction fuel with
  | zero =>
    intro l hl
    cases l with
    | nil => rfl
    | cons a l => simp at hl
  | succ fuel ih =>
    intro l hl
    cases l with
    | nil => rfl
    | cons a l =>
      have hl2 : l.length ≤ fuel := by simpa using Nat.succ_le_succ_iff.mp (by simpa using hl)
      by_cases hac : a = c
      · simp [replaceAllF, List.isPrefixOf, hac, ih l hl2]
      · simp [replaceAllF, List.isPrefixOf, hac, Ne.symm hac, ih l hl2]

/-- Replacing a single character by a single character is a character map. -/
theorem replaceAll_single (c d : Char) (l : List Char) :
    replaceAll [c] [d] l = l.map (fun x => if x = c then d else x) :=
  replaceAllF_single c d l.length l (Nat.le_refl _)

/-- With enough fuel, deleting a single character is a filter. -/
theorem replaceAllF_single_del (c : Char) :
    ∀ fuel l, l.length ≤ fuel →
      replaceAllF [c] [] fuel l = l.filter (fun x => x ≠ c) := by
  intro fuel
  induction fuel with
  | zero =>
    intro l hl
    cases l with
    | nil => rfl
    | cons a l => simp at hl
  | succ fuel ih =>
    intro l hl
    cases l with
    | nil => rfl
    | cons a l =>
      have hl2 : l.length ≤ fuel := by simpa using Nat.succ_le_succ_iff.mp (by simpa using hl)
      by_cases hac : a = c
      · simp [replaceAllF, List.isPrefixOf, hac, ih l hl2, List.filter_cons]
      · simp [replaceAllF, List.isPrefixOf, hac, Ne.symm hac, ih l hl2, List.filter_cons]

/-- Deleting a single character is a filter. -/
theorem replaceAll_single_del (c : Char) (l : List Char) :
    replaceAll [c] [] l = l.filter (fun x => x ≠ c) :=
  replaceAllF_single_del c l.length l (Nat.le_refl _)

/-- One replacement step at the front of an exact pattern occurrence. -/
theorem replaceAllF_cons_self (pat rep : List Char) (hp : pat ≠ []) (fuel : Nat)
    (rest : List Char) :
    replaceAllF pat rep (fuel + 1) (pat ++ rest) = rep ++ replaceAllF pat rep fuel rest := by
  cases pat with
  | nil => exact absurd rfl hp
  | cons p ps =>
    have hpre : (p :: ps).isPrefixOf (p :: (ps ++ rest)) = true := by
      simpa using isPrefixOf_append_self (p :: ps) rest
    rw [List.cons_append]
    rw [show replaceAllF (p :: ps) rep (fuel + 1) (p :: (ps ++ rest)) =
        if (p :: ps).isPrefixOf (p :: (ps ++ rest)) ∧ (p :: ps) ≠ ([] : List Char) then
          rep ++ replaceAllF (p :: ps) rep fuel ((ps ++ rest).drop ((p :: ps).length - 1))
        else p :: replaceAllF (p :: ps) rep fuel (ps ++ rest) from rfl]
    rw [if_pos ⟨by simp [hpre], by simp⟩]
    simp only [List.length_cons, Nat.add_sub_cancel]
    rw [List.drop_left]

/-- Stripping the pattern from the front of `pat ++ rest` when the
remainder contains no further occurrence. -/
theorem replaceAll_strip_head (pat rep rest : List Char) (hp : pat ≠ [])
    (hno : containsSub pat rest = false) :
    replaceAll pat rep (pat ++ rest) = rep ++ rest := by
  unfold replaceAll
  have hl : (pat ++ rest).length = (pat.length - 1 + rest.length) + 1 := by
    cases pat with
    | nil => exact absurd rfl hp
    | cons p ps => simp [List.length_append]
  rw [hl, replaceAllF_cons_self pat rep hp _ rest,
    replaceAllF_not_contains pat rep _ rest (by omega) hno]

/-- The occurrence scan for the two-character pattern `,]` coincides with
the adjacency scan `hasCB`. -/
theorem containsSub_pair (l : List Char) : containsSub ([',', ']']) l = hasCB l := by
  induction l with
  | nil => rfl
  | cons a l ih =>
    simp only [containsSub, hasCB, ih]
    congr 1
    cases l with
    | nil => simp [List.isPrefixOf]
    | cons b t =>
      by_cases h1 : a = ',' <;> by_cases h2 : b = ']' <;>
        simp [List.isPrefixOf, h1, h2, Ne.symm]

/-- Occurrence of `,]` in a concatenation: in the left part, in the right
part, or straddling the boundary. -/
theorem hasCB_append (xs ys : List Char) :
    hasCB (xs ++ ys) =
      (hasCB xs ||
        (decide (xs.getLast? = some ',') && decide (ys.head? = some ']')) ||
        hasCB ys) := by
  induction xs with
  | nil => simp [hasCB]
  | cons a xs ih =>
    cases xs with
    | nil =>
      cases ys with
      | nil => simp [hasCB]
      | cons b t => simp [hasCB, Bool.or_comm]
    | cons b t =>
      simp only [List.cons_append, hasCB] at ih ⊢
      rw [ih]
      simp only [List.head?_cons, List.getLast?_cons_cons]
      cases decide (a = ',') <;> cases decide ((t ++ ys).head? = some ']') <;>
        simp [Bool.or_assoc]

/-- A faithfully handled model string, quoted for JSON, contains no `,]`. -/
theorem hasCB_quoteD (m : List Char) (h : hasCB m = false) :
    hasCB (quoteD m) = false := by
  have hni : ¬ dqc = ',' := by decide
  have hnb : ¬ dqc = ']' := by decide
  simp only [quoteD, hasCB, hasCB_append, h]
  simp [hni, hnb, hasCB]

/-- The JSON body of a non-empty model list starts with a double quote. -/
theorem jbody_head (m : List Char) (ms : List (List Char)) :
    (jbody (m :: ms)).head? = some dqc := by
  cases ms with
  | nil => simp [jbody, quoteD]
  | cons m2 rest => simp [jbody, quoteD]

/-- The JSON body of a non-empty model list is non-empty. -/
theorem jbody_ne_nil (m : List Char) (ms : List (List Char)) :
    jbody (m :: ms) ≠ [] := by
  cases ms with
  | nil => simp [jbody, quoteD]
  | cons m2 rest => simp [jbody, quoteD]

/-- The JSON body of a non-empty model list ends with a double quote. -/
theorem jbody_getLast (m : List Char) (ms : List (List Char)) :
    (jbody (m :: ms)).getLast? = some dqc := by
  induction ms generalizing m with
  | nil =>
    show (quoteD m).getLast? = some dqc
    rw [show quoteD m = (dqc :: m) ++ [dqc] by simp [quoteD]]
    exact List.getLast?_concat _
  | cons m2 rest ih =>
    show (quoteD m ++ ',' :: jbody (m2 :: rest)).getLast? = some dqc
    rw [List.getLast?_append_cons]
    rw [show (',' :: jbody (m2 :: rest)) = [','] ++ jbody (m2 :: rest) by simp]
    rw [List.getLast?_append_of_ne_nil ([',']) (jbody_ne_nil m2 rest)]
    exact ih m2

/-- The JSON body of faithfully handled models contains no `,]`. -/
theorem hasCB_jbody (models : List (List Char))
    (h : ∀ m ∈ models, hasCB m = false) : hasCB (jbody models) = false := by
  induction models with
  | nil => rfl
  | cons m ms ih =>
    cases ms with
    | nil =>
      exact hasCB_quoteD m (h m (by simp))
    | cons m2 rest =>
      have h1 : hasCB (quoteD m) = false := hasCB_quoteD m (h m (by simp))
      have h2 : hasCB (jbody (m2 :: rest)) = false :=
        ih (fun x hx => h x (List.mem_cons.mpr (Or.inr hx)))
      have h3 : (quoteD m).getLast? = some dqc := jbody_getLast m []
      have h4 : (jbody (m2 :: rest)).head? = some dqc := jbody_head m2 rest
      rw [show jbody (m :: m2 :: rest) = quoteD m ++ ',' :: jbody (m2 :: rest) from rfl]
      rw [hasCB_append, h1, h3]
      rw [show hasCB (',' :: jbody (m2 :: rest)) =
        ((decide ((',' : Char) = ',') && decide ((jbody (m2 :: rest)).head? = some ']')) ||
          hasCB (jbody (m2 :: rest))) from rfl]
      rw [h2, h4]
      simp [show ¬ dqc = ',' by decide, show ¬ dqc = ']' by decide]

/-- Characters of the JSON body are quotes, separators, or model
characters. -/
theorem mem_jbody (models : List (List Char)) (x : Char) (hx : x ∈ jbody models) :
    x = dqc ∨ x = ',' ∨ ∃ m ∈ models, x ∈ m := by
  induction models with
  | nil => simp [jbody] at hx
  | cons m ms ih =>
    cases ms with
    | nil =>
      simp only [jbody, quoteD, List.mem_cons, List.mem_append,
        List.mem_singleton] at hx
      rcases hx with h | h | h | h
      · exact Or.inl h
      · exact Or.inr (Or.inr ⟨m, by simp, h⟩)
      · exact Or.inl h
      · exact absurd h (List.not_mem_nil x)
    | cons m2 rest =>
      rw [show jbody (m :: m2 :: rest) = quoteD m ++ ',' :: jbody (m2 :: rest) from rfl]
        at hx
      simp only [quoteD, List.mem_append, List.mem_cons, List.mem_singleton] at hx
      rcases hx with (h | h | h | h) | h | h
      · exact Or.inl h
      · exact Or.inr (Or.inr ⟨m, by simp, h⟩)
      · exact Or.inl h
      · exact absurd h (List.not_mem_nil x)
      · exact Or.inr (Or.inl h)
      · rcases ih h with h2 | h2 | ⟨m3, hm3, hxm3⟩
        · exact Or.inl h2
        · exact Or.inr (Or.inl h2)
        · exact Or.inr (Or.inr ⟨m3, List.mem_cons.mpr (Or.inr hm3), hxm3⟩)

/-- Characters of the JavaScript body are single quotes, separators, or
model characters. -/
theorem mem_ibody (models : List (List Char)) (x : Char) (hx : x ∈ ibody models) :
    x = sqc ∨ x = ',' ∨ ∃ m ∈ models, x ∈ m := by
  induction models with
  | nil => simp [ibody] at hx
  | cons m ms ih =>
    cases ms with
    | nil =>
      simp only [ibody, quoteS, List.mem_cons, List.mem_append,
        List.mem_singleton] at hx
      rcases hx with h | h | h | h
      · exact Or.inl h
      · exact Or.inr (Or.inr ⟨m, by simp, h⟩)
      · exact Or.inl h
      · exact absurd h (List.not_mem_nil x)
    | cons m2 rest =>
      rw [show ibody (m :: m2 :: rest) = quoteS m ++ ',' :: ibody (m2 :: rest) from rfl]
        at hx
      simp only [quoteS, List.mem_append, List.mem_cons, List.mem_singleton] at hx
      rcases hx with (h | h | h | h) | h | h
      · exact Or.inl h
      · exact Or.inr (Or.inr ⟨m, by simp, h⟩)
      · exact Or.inl h
      · exact absurd h (List.not_mem_nil x)
      · exact Or.inr (Or.inl h)
      · rcases ih h with h2 | h2 | ⟨m3, hm3, hxm3⟩
        · exact Or.inl h2
        · exact Or.inr (Or.inl h2)
        · exact Or.inr (Or.inr ⟨m3, List.mem_cons.mpr (Or.inr hm3), hxm3⟩)

/-- Mapping the quote conversion over a model string without single quotes
leaves it unchanged. -/
theorem map_subst_model (m : List Char) (h : ∀ c ∈ m, c ≠ sqc) :
    m.map (fun x => if x = sqc then dqc else x) = m := by
  induction m with
  | nil => rfl
  | cons a m ih =>
    simp only [List.map_cons, if_neg (h a (by simp)), List.cons.injEq, true_and]
    exact ih (fun c hc => h c (List.mem_cons.mpr (Or.inr hc)))

/-- The quote conversion turns the JavaScript body into the JSON body. -/
theorem map_subst_ibody (models : List (List Char))
    (h : ∀ m ∈ models, ∀ c ∈ m, c ≠ sqc) :
    (ibody models).map (fun x => if x = sqc then dqc else x) = jbody models := by
  induction models with
  | nil => rfl
  | cons m ms ih =>
    cases ms with
    | nil =>
      show (quoteS m).map _ = quoteD m
      simp [quoteS, quoteD, map_subst_model m (h m (by simp)),
        show ¬ sqc = sqc → False from fun hf => hf rfl]
    | cons m2 rest =>
      show (quoteS m ++ ',' :: ibody (m2 :: rest)).map _ =
        quoteD m ++ ',' :: jbody (m2 :: rest)
      have hm := map_subst_model m (h m (by simp))
      have hrest := ih (fun x hx => h x (List.mem_cons.mpr (Or.inr hx)))
      simp only [List.map_append, List.map_cons]
      rw [hrest]
      simp [quoteS, quoteD, hm, show ¬ (',' : Char) = sqc by decide]

/-- A double quote closes a JSON string immediately. -/
theorem parseStringBody_close (l : List Char) :
    parseStringBody (dqc :: l) = some ([], l) := by
  rw [parseStringBody.eq_def]
  simp

/-- An ordinary character (not a quote, backslash or control character) is
consumed into the string body. -/
theorem parseStringBody_char (c : Char) (l : List Char) (h2 : ¬ c = dqc)
    (h3 : ¬ c = bslc) (hlt : ¬ c.toNat < 32) :
    parseStringBody (c :: l) =
      (match parseStringBody l with
      | none => none
      | some (s, r) => some (c :: s, r)) := by
  rw [parseStringBody.eq_def]
  simp only [if_neg h2, if_neg h3, if_neg hlt]

/-- Unpacking of the admissible-character test into its six conditions. -/
theorem c10okChar_facts (c : Char) (h : c10okChar c = true) :
    ¬ c = sqc ∧ ¬ c = dqc ∧ ¬ c = bslc ∧ ¬ c = ';' ∧ ¬ c = '=' ∧ ¬ c.toNat < 32 := by
  simp only [c10okChar, Bool.and_eq_true, decide_eq_true_eq] at h
  exact ⟨h.1.1.1.1.1, h.1.1.1.1.2, h.1.1.1.2, h.1.1.2, h.1.2, by omega⟩

/-- A string body of admissible characters parses up to its closing quote,
leaving the rest of the input untouched. -/
theorem parseStringBody_exact (m : List Char) (rest : List Char)
    (h : ∀ c ∈ m, c10okChar c = true) :
    parseStringBody (m ++ dqc :: rest) = some (m, rest) := by
  induction m with
  | nil => exact parseStringBody_close rest
  | cons c m ih =>
    obtain ⟨h1, h2, h3, h4, h5, h6⟩ := c10okChar_facts c (h c (by simp))
    rw [List.cons_append, parseStringBody_char c _ h2 h3 h6,
      ih (fun x hx => h x (List.mem_cons.mpr (Or.inr hx)))]

/-- Unfolding of the array-tail parser at an input starting with a double
quote. -/
theorem parseArrayTail_cons_dqc (fuel : Nat) (X : List Char) :
    parseArrayTail (fuel + 1) (dqc :: X) =
      (match parseStringBody X with
      | none => none
      | some (s, r2) =>
        match r2.dropWhile pJsonWs with
        | [] => none
        | c2 :: r3 =>
          if c2 = ',' then
            match parseArrayTail fuel r3 with
            | none => none
            | some rest => some (s :: rest)
          else if c2 = ']' then
            if (r3.dropWhile pJsonWs).isEmpty then some [s] else none
          else none) := rfl

/-- Unfolding of the JSON parser at an input starting with the opening
bracket. -/
theorem json_loads_bracket (X : List Char) :
    json_loads_strings ('[' :: X) =
      (match X.dropWhile pJsonWs with
      | [] => parseArrayTail 1 []
      | c2 :: r2 =>
        if c2 = ']' then
          if (r2.dropWhile pJsonWs).isEmpty then some [] else none
        else parseArrayTail ((c2 :: r2).length + 1) (c2 :: r2)) := rfl

/-- The JSON array tail parser reads back exactly the encoded model list
when every model consists of admissible characters. -/
theorem parseArrayTail_jbody :
    ∀ (ms : List (List Char)) (m : List Char) (fuel : Nat),
      (m :: ms).length ≤ fuel + 1 →
      (∀ m2 ∈ m :: ms, ∀ c ∈ m2, c10okChar c = true) →
      parseArrayTail (fuel + 1) (jbody (m :: ms) ++ [']']) = some (m :: ms) := by
  intro ms
  induction ms with
  | nil =>
    intro m fuel _ h
    have hq : jbody [m] ++ ([']'] : List Char) = dqc :: (m ++ dqc :: [']']) := by
      simp [jbody, quoteD]
    have hsb := parseStringBody_exact m ([']']) (h m (by simp))
    rw [hq, parseArrayTail_cons_dqc fuel, hsb]
    simp [show ¬ (']' : Char) = ',' by decide,
      show List.dropWhile pJsonWs ([']'] : List Char) = [']'] from by decide]
  | cons m2 rest ih =>
    intro m fuel hfl h
    cases fuel with
    | zero =>
      simp only [List.length_cons] at hfl
      omega
    | succ f =>
      have hq : jbody (m :: m2 :: rest) ++ ([']'] : List Char) =
          dqc :: (m ++ dqc :: ',' :: (jbody (m2 :: rest) ++ [']'])) := by
        rw [show jbody (m :: m2 :: rest) = quoteD m ++ ',' :: jbody (m2 :: rest) from rfl]
        simp [quoteD]
      have hsb := parseStringBody_exact m (',' :: (jbody (m2 :: rest) ++ [']']))
        (h m (by simp))
      have hrec := ih m2 f
        (by simp only [List.length_cons] at hfl ⊢; omega)
        (fun x hx => h x (List.mem_cons.mpr (Or.inr hx)))
      rw [hq, parseArrayTail_cons_dqc (f + 1), hsb]
      simp [hrec, List.dropWhile_cons, show pJsonWs ',' = false by decide]

/-- The encoded body is at least as long as the model list. -/
theorem length_le_jbody (m : List Char) (ms : List (List Char)) :
    (m :: ms).length ≤ (jbody (m :: ms)).length := by
  induction ms generalizing m with
  | nil => simp [jbody, quoteD]
  | cons m2 rest ih =>
    rw [show jbody (m :: m2 :: rest) = quoteD m ++ ',' :: jbody (m2 :: rest) from rfl]
    have := ih m2
    simp only [List.length_cons, List.length_append, quoteD] at this ⊢
    omega

/-- The JSON parser reads back exactly the models from the bracketed
encoded body. -/
theorem json_loads_jbody (models : List (List Char))
    (h : ∀ m ∈ models, ∀ c ∈ m, c10okChar c = true) :
    json_loads_strings ('[' :: (jbody models ++ [']'])) = some models := by
  cases models with
  | nil => decide
  | cons m ms =>
    have hsh : ∃ t, jbody (m :: ms) = dqc :: t := by
      cases ms with
      | nil => exact ⟨m ++ [dqc], rfl⟩
      | cons m2 rest =>
        refine ⟨(m ++ [dqc]) ++ ',' :: jbody (m2 :: rest), ?_⟩
        rw [show jbody (m :: m2 :: rest) = quoteD m ++ ',' :: jbody (m2 :: rest) from rfl]
        simp [quoteD]
    obtain ⟨t, ht⟩ := hsh
    rw [json_loads_bracket, ht, List.cons_append,
      show List.dropWhile pJsonWs (dqc :: (t ++ [']'])) = dqc :: (t ++ [']']) from by
        simp [List.dropWhile_cons, show pJsonWs dqc = false by decide]]
    simp only [if_neg (show ¬ dqc = ']' by decide)]
    rw [← List.cons_append, ← ht]
    have hlen : (m :: ms).length ≤ (jbody (m :: ms)).length := length_le_jbody m ms
    exact parseArrayTail_jbody ms m (jbody (m :: ms) ++ ([']'] : List Char)).length
      (by simp only [List.length_cons, List.length_append] at hlen ⊢; omega) h

/-- A text without newlines splits into a single line. -/
theorem splitLines_single (l : List Char) (h : ∀ c ∈ l, c ≠ '\n') :
    splitLines l = [l] := by
  induction l with
  | nil => rfl
  | cons c l ih =>
    have hrest := ih (fun x hx => h x (List.mem_cons.mpr (Or.inr hx)))
    simp [splitLines, hrest, h c (by simp)]

/-- A non-empty pattern occurs in itself followed by anything. -/
theorem containsSub_append_self (pat X : List Char) (hp : pat ≠ []) :
    containsSub pat (pat ++ X) = true := by
  cases pat with
  | nil => exact absurd rfl hp
  | cons p ps => simp [containsSub, isPrefixOf_append_self]

/-- Characters of the raw model-declaration line after the assignment
prefix: fixed punctuation or characters of a declared model. -/
theorem mem_c10rest (models : List (List Char)) (x : Char)
    (hx : x ∈ (' ' :: '[' :: (ibody models ++ ([']', ';'] : List Char)))) :
    x = ' ' ∨ x = '[' ∨ x = sqc ∨ x = ',' ∨ x = ']' ∨ x = ';' ∨ ∃ m ∈ models, x ∈ m := by
  rcases List.mem_cons.mp hx with h1 | hx2
  · exact Or.inl h1
  rcases List.mem_cons.mp hx2 with h1 | hx3
  · exact Or.inr (Or.inl h1)
  rcases List.mem_append.mp hx3 with h1 | h1
  · rcases mem_ibody models x h1 with h2 | h2 | hm
    · exact Or.inr (Or.inr (Or.inl h2))
    · exact Or.inr (Or.inr (Or.inr (Or.inl h2)))
    · exact Or.inr (Or.inr (Or.inr (Or.inr (Or.inr (Or.inr hm)))))
  · rcases List.mem_cons.mp h1 with h2 | h2
    · exact Or.inr (Or.inr (Or.inr (Or.inr (Or.inl h2))))
    · exact Or.inr (Or.inr (Or.inr (Or.inr (Or.inr (Or.inl (by simpa using h2))))))

/-- The full text rewriting applied to the declaration line of admissible
models yields exactly the declared model list. -/
theorem transformLine_c10line (models : List (List Char))
    (h : ∀ m ∈ models, c10okModel m = true) :
    transformLine (c10line models) = some models := by
  have hch : ∀ m ∈ models, ∀ c ∈ m, c10okChar c = true := by
    intro m hm c hc
    have hmm := h m hm
    simp only [c10okModel, Bool.and_eq_true] at hmm
    exact (List.all_eq_true.mp hmm.1) c hc
  have hcb : ∀ m ∈ models, hasCB m = false := by
    intro m hm
    have hmm := h m hm
    simp only [c10okModel, Bool.and_eq_true] at hmm
    simpa using hmm.2
  have hstep1 : replaceAll varModelsEq [] (c10line models) =
      ' ' :: '[' :: (ibody models ++ [']', ';']) := by
    have hno : containsSub varModelsEq
        (' ' :: '[' :: (ibody models ++ [']', ';'])) = false := by
      apply containsSub_eq_false_of_char varModelsEq '=' (by decide)
      intro x hx
      rcases mem_c10rest models x hx with h1 | h1 | h1 | h1 | h1 | h1 | ⟨m, hm, hxm⟩
      · subst h1; decide
      · subst h1; decide
      · subst h1; decide
      · subst h1; decide
      · subst h1; decide
      · subst h1; decide
      · exact (c10okChar_facts x (hch m hm x hxm)).2.2.2.2.1
    have hs := replaceAll_strip_head varModelsEq []
      (' ' :: '[' :: (ibody models ++ [']', ';'])) (by decide) hno
    simpa [c10line] using hs
  have hstep2 : replaceAll [sqc] [dqc] (' ' :: '[' :: (ibody models ++ [']', ';'])) =
      ' ' :: '[' :: (jbody models ++ [']', ';']) := by
    rw [replaceAll_single]
    simp only [List.map_cons, List.map_append]
    rw [map_subst_ibody models (fun m hm c hc => (c10okChar_facts c (hch m hm c hc)).1)]
    simp [show ¬ (' ' : Char) = sqc by decide, show ¬ ('[' : Char) = sqc by decide,
      show ¬ (']' : Char) = sqc by decide, show ¬ (';' : Char) = sqc by decide]
  have hstep3 : replaceAll [',', ']'] [']']
      (' ' :: '[' :: (jbody models ++ [']', ';'])) =
      ' ' :: '[' :: (jbody models ++ [']', ';']) := by
    apply replaceAll_not_contains
    rw [containsSub_pair]
    have hj : hasCB (jbody models) = false := hasCB_jbody models hcb
    have hb : hasCB ((jbody models) ++ ([']', ';'] : List Char)) = false := by
      rw [hasCB_append, hj]
      cases models with
      | nil => decide
      | cons m ms =>
        rw [jbody_getLast m ms]
        decide
    simp [hasCB, hb]
  have hstep4 : replaceAll [';'] [] (' ' :: '[' :: (jbody models ++ [']', ';'])) =
      ' ' :: '[' :: (jbody models ++ [']']) := by
    rw [replaceAll_single_del]
    have hfj : List.filter (fun x => x ≠ ';') (jbody models) = jbody models := by
      rw [List.filter_eq_self]
      intro a ha
      rcases mem_jbody models a ha with h1 | h1 | ⟨m, hm, ham⟩
      · subst h1; decide
      · subst h1; decide
      · simpa using (c10okChar_facts a (hch m hm a ham)).2.2.2.1
    simp only [List.filter_cons, List.filter_append, hfj]
    simp
  have hstep5 : pyStrip (' ' :: '[' :: (jbody models ++ [']'])) =
      '[' :: (jbody models ++ [']']) := by
    unfold pyStrip
    rw [show List.dropWhile pyIsSpace (' ' :: '[' :: (jbody models ++ [']'])) =
        '[' :: (jbody models ++ [']']) from by
      simp [List.dropWhile_cons, show pyIsSpace ' ' = true from by decide,
        show pyIsSpace '[' = false from by decide]]
    rw [show ('[' :: (jbody models ++ [']'])).reverse =
        ']' :: ((jbody models).reverse ++ ['[']) from by simp]
    rw [show List.dropWhile pyIsSpace (']' :: ((jbody models).reverse ++ ['['])) =
        ']' :: ((jbody models).reverse ++ ['[']) from by
      simp [List.dropWhile_cons, show pyIsSpace ']' = false from by decide]]
    simp

  unfold transformLine
  rw [hstep1, hstep2, hstep3, hstep4, hstep5]
  exact json_loads_jbody models hch

/-- Counterexample for claim C10 as stated: the line
`var models = [<sq>MacBookPro9,1<sq>,<sq>a<dq>b<sq>];` has no trailing
comma and its model strings contain no single quote, no semicolon and no
`,]`, yet the extractor does not return the declared list — the rewritten
text is not valid JSON (a stray double quote), so the parse raises
(modelled by `none`). -/
theorem C10_no_trailing_comma_cex :
    (∀ m ∈ [("MacBookPro9,1").toList, ("a").toList ++ [dqc] ++ ("b").toList],
      (∀ c ∈ m, c ≠ sqc ∧ c ≠ ';') ∧ hasCB m = false) ∧
    get_supported_models
      (c10line [("MacBookPro9,1").toList,
        ("a").toList ++ [dqc] ++ ("b").toList]) = none := by
  constructor
  · decide
  · decide

/-- Claim C10 as amended: the transformation does not require the trailing
comma — for every declaration line `var models = [<sq>A<sq>,<sq>B<sq>];`
with no comma before the closing bracket, whose model strings contain no
single quote, double quote, backslash, semicolon, equals sign or control
character and no `,]` substring, `get_supported_models` returns exactly
the declared model list. -/
theorem C10_no_trailing_comma_amended (models : List (List Char))
    (h : ∀ m ∈ models, c10okModel m = true) :
    get_supported_models (c10line models) = some models := by
  have hch : ∀ m ∈ models, ∀ c ∈ m, c10okChar c = true := by
    intro m hm c hc
    have hmm := h m hm
    simp only [c10okModel, Bool.and_eq_true] at hmm
    exact (List.all_eq_true.mp hmm.1) c hc
  have hline : ∀ c ∈ c10line models, c ≠ '\n' := by
    intro x hx
    rcases List.mem_append.mp hx with h1 | h1
    · exact (show ∀ y ∈ varModelsEq, y ≠ '\n' from by decide) x h1
    · rcases mem_c10rest models x h1 with h2 | h2 | h2 | h2 | h2 | h2 | ⟨m, hm, hxm⟩
      · subst h2; decide
      · subst h2; decide
      · subst h2; decide
      · subst h2; decide
      · subst h2; decide
      · subst h2; decide
      · intro heq
        subst heq
        exact (c10okChar_facts _ (hch m hm _ hxm)).2.2.2.2.2 (by decide)
  have hsp : splitLines (c10line models) = [c10line models] :=
    splitLines_single _ hline
  have hfind : containsSub varModels (c10line models) = true := by
    rw [show c10line models = varModels ++ ((" =").toList ++
        (' ' :: '[' :: (ibody models ++ [']', ';']))) from by
      rw [show c10line models = varModelsEq ++
          (' ' :: '[' :: (ibody models ++ [']', ';'])) from rfl]
      rw [show (varModelsEq : List Char) = varModels ++ (" =").toList from by decide]
      simp]
    exact containsSub_append_self varModels _ (by decide)
  unfold get_supported_models
  rw [hsp]
  simp only [List.find?, hfind]
  exact transformLine_c10line models h

/-- Witness for C10 at two concrete models with no trailing comma. -/
theorem C10_no_trailing_comma_amended_w :
    get_supported_models
      (c10line [("MacBookPro9,1").toList, ("MacBookPro12,1").toList]) =
      some [("MacBookPro9,1").toList, ("MacBookPro12,1").toList] :=
  C10_no_trailing_comma_amended
    [("MacBookPro9,1").toList, ("MacBookPro12,1").toList] (by decide)
